import Mathlib

/-!
# Verification of the oil 3-2-1 crack-spread analysis module

Shallow embedding of `generate_oil_analysis.py`.  Numeric cells are modelled
as `Option ℚ` (`none` is pandas' NaN for a cell, exact rationals stand for
the numeric values), dates as `ℤ` (only their ordering matters to the code).
A DataFrame is a list of rows together with its list of column names.

The pandas primitives used by the source (`Series.interpolate` with
`method='linear'` and `limit=n`, `Series.ffill`, `Series.bfill`,
`DataFrame.sort_values`, `Series.max`) are embedded with their documented
semantics on a default positional index:
* `interpolate(limit=n)` fills at most `n` consecutive NaNs per run, in the
  forward direction; interior runs get the linear-interpolation values
  computed from the two bounding valid values, and a run after the last
  valid value is filled flat with that value (linear interpolation does not
  extrapolate a slope); a run before the first valid value is left unfilled.
* `ffill` replaces each NaN with the closest valid value before it.
* `bfill` replaces each NaN with the closest valid value after it.
-/

namespace Oil

/-- Forward fill once a valid value `a` has been seen: every `none` becomes
the most recent valid value. -/
def ffillFrom (a : ℚ) : List (Option ℚ) → List (Option ℚ)
  | [] => []
  | none :: rest => some a :: ffillFrom a rest
  | some b :: rest => some b :: ffillFrom b rest

/-- pandas `Series.ffill`: leading NaNs are left as is; afterwards every NaN
takes the most recent valid value. -/
def ffill : List (Option ℚ) → List (Option ℚ)
  | [] => []
  | none :: rest => none :: ffill rest
  | some a :: rest => some a :: ffillFrom a rest

/-- pandas `Series.bfill`: every NaN takes the next valid value after it;
trailing NaNs are left as is.  Realised as `ffill` on the reversed list. -/
def bfill (xs : List (Option ℚ)) : List (Option ℚ) :=
  (ffill xs.reverse).reverse

/-- The values written by linear interpolation into an interior run of `g`
NaNs bounded by valid values `a` (before) and `b` (after), under
`limit = lim`: position `k` (0-based within the run) gets the interpolated
value `a + (k+1)·(b−a)/(g+1)` if `k < lim`, and stays NaN otherwise. -/
def gapFill (lim : ℕ) (a b : ℚ) (g : ℕ) : List (Option ℚ) :=
  (List.range g).map fun k =>
    if k < lim then some (a + (b - a) * (k + 1) / (g + 1)) else none

/-- The values written by `interpolate` into a run of `g` NaNs after the
last valid value `a`: flat fill with `a`, truncated at `lim`. -/
def tailFill (lim : ℕ) (a : ℚ) (g : ℕ) : List (Option ℚ) :=
  (List.range g).map fun k => if k < lim then some a else none

/-- Interpolation state after the first valid value `a` has been seen, with
`pending` NaNs accumulated since the last valid value. -/
def interpFrom (lim : ℕ) (a : ℚ) (pending : ℕ) : List (Option ℚ) → List (Option ℚ)
  | [] => tailFill lim a pending
  | none :: rest => interpFrom lim a (pending + 1) rest
  | some b :: rest => gapFill lim a b pending ++ some b :: interpFrom lim b 0 rest

/-- pandas `Series.interpolate(method='linear', limit=lim)` on a positional
index: NaNs before the first valid value are untouched. -/
def interpolate (lim : ℕ) : List (Option ℚ) → List (Option ℚ)
  | [] => []
  | none :: rest => none :: interpolate lim rest
  | some a :: rest => some a :: interpFrom lim a 0 rest

/-- The gap-filling applied to each price column at lines 51–53 of the
source: `.interpolate(limit=7).ffill().bfill()` (with `lim` abstracting the
literal 7). -/
def clean (lim : ℕ) (xs : List (Option ℚ)) : List (Option ℚ) :=
  bfill (ffill (interpolate lim xs))

/-- One row of the price DataFrame.  `crack` is meaningful only when the
column `"crack"` is listed in the table's columns; `extra` carries the cells
of any further columns, which the module never touches. -/
structure PRow where
  date : ℤ
  crude : Option ℚ
  rbob : Option ℚ
  ulsd : Option ℚ
  crack : Option ℚ
  extra : List (Option ℚ)
deriving Repr, DecidableEq

/-- A DataFrame: column names plus rows. -/
structure Table where
  cols : List String
  rows : List PRow
deriving Repr, DecidableEq

/-- The required columns, as in `required = {"date","crude","rbob","ulsd"}`. -/
def requiredCols : List String := ["date", "crude", "rbob", "ulsd"]

/-- Like `required - set(df.columns)`: the required columns absent from `cols`. -/
def missingCols (cols : List String) : List String :=
  requiredCols.filter fun c => !(cols.contains c)

/-- How `load_price_history` can fail: `parseDates` is the `ValueError`
raised by `pd.read_csv(..., parse_dates=["date"])` when a column given in
`parse_dates` is absent (it names only those columns); `schema` is the
`ValueError` of line 41, carrying `required - set(df.columns)`. -/
inductive LoadErr where
  | parseDates (missing : List String)
  | schema (missing : List String)
deriving Repr, DecidableEq

/-- Embeds `df.sort_values("date")`: sort rows by date (ascending). -/
def sortByDate (rows : List PRow) : List PRow :=
  rows.mergeSort fun r s => decide (r.date ≤ s.date)

/-- Write the three cleaned columns back into the rows
(`df["crude"] = ...` etc., the assignments of lines 51–53). -/
def zipRows : List PRow → List (Option ℚ) → List (Option ℚ) → List (Option ℚ) → List PRow
  | row :: rows, c :: cs, r :: rs, u :: us =>
      { row with crude := c, rbob := r, ulsd := u } :: zipRows rows cs rs us
  | _, _, _, _ => []

/-- Lines 46–53: coerced columns are cleaned independently and written back. -/
def applyClean (rows : List PRow) : List PRow :=
  zipRows rows
    (clean 7 (rows.map (·.crude)))
    (clean 7 (rows.map (·.rbob)))
    (clean 7 (rows.map (·.ulsd)))

/-- Embeds `df["date"].max()` (`none` on an empty frame, pandas' NaT). -/
def maxDate (rows : List PRow) : Option ℤ :=
  (rows.map (·.date)).max?

/-- Embeds `load_price_history(csv_path, today)`.  The input CSV is modelled by the
parsed `Table` (cell coercion failures are already `none`); `today` is the
optional reference date.  `pd.read_csv(..., parse_dates=["date"])` raises
when the `date` column is absent, before the schema check of lines 40–41;
afterwards rows are sorted by date, the three price columns are cleaned,
and if `today` is later than the maximum date a copy of the last row dated
`today` is appended (lines 55–62). -/
def load_price_history (t : Table) (today : Option ℤ) : Except LoadErr Table :=
  if "date" ∈ t.cols then
    if missingCols t.cols = [] then
      let df := applyClean (sortByDate t.rows)
      match today with
      | none => .ok { cols := t.cols, rows := df }
      | some d =>
          match df.getLast?, maxDate df with
          | some last, some m =>
              if m < d then .ok { cols := t.cols, rows := df ++ [{ last with date := d }] }
              else .ok { cols := t.cols, rows := df }
          | _, _ => .ok { cols := t.cols, rows := df }
    else .error (.schema (missingCols t.cols))
  else .error (.parseDates ["date"])

/-- The expression `(2 * rbob + 1 * ulsd) * 42 - 3 * crude` on cells, NaN-propagating. -/
def crackOf (c r u : Option ℚ) : Option ℚ :=
  match c, r, u with
  | some c, some r, some u => some ((2 * r + 1 * u) * 42 - 3 * c)
  | _, _, _ => none

/-- The message of the `ValueError` raised by `compute_crack` (line 75). -/
def crackErrMsg : String :=
  "DataFrame must contain date, crude, rbob, ulsd columns"

/-- Embeds `compute_crack(prices)`: checks the required columns, then returns a new
table with the `crack` column assigned row-wise (added to the columns when
not already present, overwritten otherwise). -/
def compute_crack (prices : Table) : Except String Table :=
  if requiredCols.all (fun c => prices.cols.contains c) then
    .ok { cols := if prices.cols.contains "crack" then prices.cols
                  else prices.cols ++ ["crack"],
          rows := prices.rows.map fun r =>
            { r with crack := crackOf r.crude r.rbob r.ulsd } }
  else .error crackErrMsg

/-- Embeds `compute_percentile(series, value)`: share (0–100) of non-NaN values
that are `≤ value`; `none` (NaN) on an all-NaN series. -/
def compute_percentile (series : List (Option ℚ)) (value : ℚ) : Option ℚ :=
  let arr := series.filterMap id
  if arr.length = 0 then none
  else some (((arr.filter fun x => decide (x ≤ value)).length : ℚ) / arr.length * 100)

/-- One row of the scenario table of `build_scenario_table`. -/
structure ScenarioRow where
  crude : ℚ
  rbob : ℚ
  ulsd : ℚ
  crack : ℚ
deriving Repr, DecidableEq

/-- The scenario enumeration of lines 144–153: crude deltas outer loop,
product deltas inner loop, in the listed order. -/
def scenarioList (crude rbob ulsd : ℚ) : List ScenarioRow :=
  ([-1, 0, 1] : List ℚ).flatMap fun dc =>
    ([-0.05, 0, 0.05] : List ℚ).map fun dp =>
      let c := crude + dc
      let r := rbob + dp
      let u := ulsd + dp
      { crude := c, rbob := r, ulsd := u, crack := (2 * r + u) * 42 - 3 * c }

/-- Embeds `build_scenario_table(crude, rbob, ulsd)`: the enumeration sorted by
descending `crack` (`df.sort_values(["crack"], ascending=False)`; the crack
values are pairwise distinct, so every sort produces that unique order). -/
def build_scenario_table (crude rbob ulsd : ℚ) : List ScenarioRow :=
  (scenarioList crude rbob ulsd).mergeSort fun x y => decide (y.crack ≤ x.crack)

/-- A citation: either a `(label, url)` pair or a bare string. -/
inductive Citation where
  | pair (label url : String)
  | bare (s : String)
deriving Repr, DecidableEq

/-- Python's `f"{x:.1f}"` on an exact rational: one decimal digit. -/
def fmt1 (q : ℚ) : String :=
  let n : ℤ := round (q * 10)
  (if n < 0 then "-" else "") ++ toString (n.natAbs / 10) ++ "." ++ toString (n.natAbs % 10)

/-- Python `.1f` formatting of a possibly-NaN cell; on NaN it prints nan. -/
def fmt1Opt : Option ℚ → String
  | none => "nan"
  | some q => fmt1 q

/-- Embeds `Series.mean()`: NaNs are skipped; NaN on an all-NaN series. -/
def meanOpt (l : List (Option ℚ)) : Option ℚ :=
  let v := l.filterMap id
  if v.length = 0 then none else some (v.sum / v.length)

/-- The message of the `IndexError` raised by `df.iloc[-1]` on an empty
frame. -/
def emptyFrameMsg : String :=
  "single positional indexer is out-of-bounds"

/-- One references line of the market note (lines 180–185). -/
def noteRefLine : Citation → String
  | .pair label url => "- [" ++ label ++ "](" ++ url ++ ")\n"
  | .bare s => "- " ++ s ++ "\n"

/-- Embeds `write_market_note(prices, today, note_path, citation_refs)`, returning
the text written to `note_path`.  The `today` argument is accepted but never
read by the source; the heading date, latest crack, percentile and mean all
come from the last row of the (re-)cracked table.  Errors: the schema error
of `compute_crack`, and `df.iloc[-1]` on an empty frame. -/
def write_market_note (prices : Table) (today : ℤ) (note_path : String)
    (citation_refs : List Citation) : Except String String :=
  match compute_crack prices with
  | .error e => .error e
  | .ok df =>
      match df.rows.getLast? with
      | none => .error emptyFrameMsg
      | some latest =>
          let pct : Option ℚ :=
            match latest.crack with
            | some v => compute_percentile (df.rows.map (·.crack)) v
            | none => none
          let mean := meanOpt (df.rows.map (·.crack))
          let lines : List String :=
            ["# Market note — 3‑2‑1 crack overview (" ++ toString latest.date ++ ")\n",
             "Today's 3‑2‑1 crack: **" ++ fmt1Opt latest.crack ++ " USD/bbl** (percentile: **"
               ++ fmt1Opt pct ++ "%** vs history).\n",
             "3‑year average (approx): **" ++ fmt1Opt mean
               ++ " USD/bbl**. This note is automatically generated and should be edited before distribution.\n"]
          let lines := if citation_refs.isEmpty then lines
                       else lines ++ ["\nReferences:\n"] ++ citation_refs.map noteRefLine
          .ok (String.intercalate "\n" lines)

/-! ### Auxiliary definitions used to state and prove the properties -/

/-- The linear-interpolation value at 0-based position `k` of an interior
run of `g` missing values bounded by `a` before and `b` after. -/
def gapVal (a b : ℚ) (g k : ℕ) : ℚ :=
  a + (b - a) * (k + 1) / (g + 1)

/-- The first `min g 7` positions of such a run: the part that
`interpolate(limit=7)` actually fills. -/
def sloped (a b : ℚ) (g : ℕ) : List (Option ℚ) :=
  (List.range (min g 7)).map fun k => some (gapVal a b g k)

/-- The values an interior run of `g` missing values ends up with after
`.interpolate(limit=7).ffill().bfill()`: position `k` holds the
interpolated value for `k < 7` and repeats the 7th interpolated value
afterwards. -/
def filledGap7 (a b : ℚ) (g : ℕ) : List (Option ℚ) :=
  (List.range g).map fun k => some (gapVal a b g (min k 6))

/-- The valid value a forward fill would be carrying after traversing `S`,
having carried `x` before it. -/
def lastVal (x : ℚ) (S : List (Option ℚ)) : ℚ :=
  S.foldl (fun acc o => o.getD acc) x

/-- Full linear interpolation across an interior run of `g` missing values
bounded by `a` and `b`: position `k` (0-based) holds `a + (k+1)·(b−a)/(g+1)`. -/
def interpVals (a b : ℚ) (g : ℕ) : List (Option ℚ) :=
  (List.range g).map fun k : ℕ => some (a + (b - a) * (k + 1) / (g + 1))

/-- Interpolation capped at 7: position `k` holds
`a + min(k+1, 7)·(b−a)/(g+1)` — the first 7 positions are interpolated and
every later position repeats the 7th interpolated value. -/
def cappedVals (a b : ℚ) (g : ℕ) : List (Option ℚ) :=
  (List.range g).map fun k : ℕ =>
    some (a + (b - a) * ((min (k + 1) 7 : ℕ) : ℚ) / (g + 1))

/-- A one-row price table: `crude=80`, `rbob=2.40`, `ulsd=2.60`. -/
def row80 : PRow :=
  { date := 0, crude := some 80, rbob := some (12/5), ulsd := some (13/5),
    crack := none, extra := [] }

def T80 : Table := { cols := requiredCols, rows := [row80] }

/-- Result of `compute_crack T80`: the crack cell holds `354/5 = 70.8`. -/
def T80c : Table :=
  { cols := requiredCols ++ ["crack"],
    rows := [{ row80 with crack := some (354/5) }] }

/-- Row `row80` with a pre-existing `crack` value `0`. -/
def t9row : PRow := { row80 with crack := some 0 }

/-- A table that already carries a `crack` column, with value `0`. -/
def T9 : Table :=
  { cols := requiredCols ++ ["crack"],
    rows := [t9row] }

/-- A table missing both `date` and `crude`. -/
def T2 : Table := { cols := ["rbob", "ulsd"], rows := [] }

/-- A table with `date` present but `crude` and `rbob` missing. -/
def T2b : Table := { cols := ["date", "ulsd"], rows := [] }

/-- The `rbob` column with an interior run of 10 missing values between the
valid values 10 and 21. -/
def rbobCol12 : List (Option ℚ) :=
  [some 10, none, none, none, none, none, none, none, none, none, none, some 21]

/-- One row of `T12`. -/
def t12row (d : ℤ) (r : Option ℚ) : PRow :=
  { date := d, crude := some 50, rbob := r, ulsd := some 50,
    crack := none, extra := [] }

/-- A 12-row table (sorted dates) whose `rbob` column is `rbobCol12`. -/
def T12 : Table :=
  { cols := requiredCols,
    rows := [t12row 0 (some 10), t12row 1 none, t12row 2 none, t12row 3 none,
             t12row 4 none, t12row 5 none, t12row 6 none, t12row 7 none,
             t12row 8 none, t12row 9 none, t12row 10 none, t12row 11 (some 21)] }

/-- A sorted two-row table used to exercise the reference-date extension. -/
def rowA : PRow :=
  { date := 0, crude := some 1, rbob := some 1, ulsd := some 1,
    crack := none, extra := [] }

def rowB : PRow :=
  { date := 1, crude := some 2, rbob := some 2, ulsd := some 2,
    crack := none, extra := [] }

def T6 : Table := { cols := requiredCols, rows := [rowA, rowB] }

/-! ### Length preservation of the fill primitives -/

theorem length_ffillFrom (a : ℚ) (xs : List (Option ℚ)) :
    (ffillFrom a xs).length = xs.length := by
  induction xs generalizing a with
  | nil => simp [ffillFrom]
  | cons h t ih => cases h <;> simp [ffillFrom, ih]

theorem length_ffill (xs : List (Option ℚ)) : (ffill xs).length = xs.length := by
  induction xs with
  | nil => simp [ffill]
  | cons h t ih => cases h <;> simp [ffill, ih, length_ffillFrom]

theorem length_bfill (xs : List (Option ℚ)) : (bfill xs).length = xs.length := by
  simp [bfill, length_ffill]

theorem length_gapFill (lim : ℕ) (a b : ℚ) (g : ℕ) :
    (gapFill lim a b g).length = g := by
  simp [gapFill]

theorem length_tailFill (lim : ℕ) (a : ℚ) (g : ℕ) :
    (tailFill lim a g).length = g := by
  simp [tailFill]

theorem length_interpFrom (lim : ℕ) (a : ℚ) (p : ℕ) (xs : List (Option ℚ)) :
    (interpFrom lim a p xs).length = p + xs.length := by
  induction xs generalizing a p with
  | nil => simp [interpFrom, length_tailFill]
  | cons h t ih => cases h <;> simp [interpFrom, ih, length_gapFill] <;> omega

theorem length_interpolate (lim : ℕ) (xs : List (Option ℚ)) :
    (interpolate lim xs).length = xs.length := by
  induction xs with
  | nil => simp [interpolate]
  | cons h t ih => cases h <;> simp [interpolate, ih, length_interpFrom]

theorem length_clean (lim : ℕ) (xs : List (Option ℚ)) :
    (clean lim xs).length = xs.length := by
  simp [clean, length_bfill, length_ffill, length_interpolate]

/-! ### Forward/backward fill decompositions -/

theorem isSome_ffillFrom (a : ℚ) (xs : List (Option ℚ)) :
    ∀ z ∈ ffillFrom a xs, z.isSome := by
  induction xs generalizing a with
  | nil => simp [ffillFrom]
  | cons h t ih =>
      cases h <;> simp only [ffillFrom, List.mem_cons] <;>
        rintro z (rfl | hz) <;> first | rfl | exact ih _ z hz

theorem ffillFrom_allSome_append (S : List (Option ℚ)) (hS : ∀ z ∈ S, z.isSome)
    (x : ℚ) (rest : List (Option ℚ)) :
    ffillFrom x (S ++ rest) = S ++ ffillFrom (lastVal x S) rest := by
  induction S generalizing x with
  | nil => simp [lastVal]
  | cons h t ih =>
      cases h with
      | none => exact absurd (hS none (by simp)) (by simp)
      | some v =>
          simp only [List.cons_append, ffillFrom, List.append_eq]
          rw [ih (fun z hz => hS z (by simp [hz])) v]
          simp [lastVal]

theorem ffillFrom_replicate_none (w : ℚ) (m : ℕ) (rest : List (Option ℚ)) :
    ffillFrom w (List.replicate m none ++ rest)
      = List.replicate m (some w) ++ ffillFrom w rest := by
  induction m with
  | zero => simp
  | succ n ih => simp [List.replicate_succ, ffillFrom, ih]

theorem ffill_allSome_append (S : List (Option ℚ)) (hS : ∀ z ∈ S, z.isSome)
    (a : ℚ) (R : List (Option ℚ)) :
    ffill (S ++ some a :: R) = S ++ some a :: ffillFrom a R := by
  cases S with
  | nil => simp [ffill, ffillFrom]
  | cons h t =>
      cases h with
      | none => exact absurd (hS none (by simp)) (by simp)
      | some v =>
          simp only [List.cons_append, ffill, List.append_eq]
          rw [ffillFrom_allSome_append t (fun z hz => hS z (by simp [hz])) v]
          simp [ffillFrom]

theorem ffill_replicate_none (n : ℕ) (a : ℚ) (T : List (Option ℚ)) :
    ffill (List.replicate n none ++ some a :: T)
      = List.replicate n none ++ some a :: ffillFrom a T := by
  induction n with
  | zero => simp [ffill]
  | succ m ih => simp [List.replicate_succ, ffill, ih]

theorem ffillFrom_append_ex (A : List (Option ℚ)) (x a : ℚ) (T : List (Option ℚ)) :
    ∃ A2, ffillFrom x (A ++ some a :: T) = A2 ++ some a :: ffillFrom a T
      ∧ A2.length = A.length := by
  induction A generalizing x with
  | nil => exact ⟨[], by simp [ffillFrom], rfl⟩
  | cons h t ih =>
      cases h with
      | none =>
          obtain ⟨A2, hA, hl⟩ := ih x
          exact ⟨some x :: A2, by simp [ffillFrom, hA], by simp [hl]⟩
      | some v =>
          obtain ⟨A2, hA, hl⟩ := ih v
          exact ⟨some v :: A2, by simp [ffillFrom, hA], by simp [hl]⟩

theorem ffill_append_ex (A : List (Option ℚ)) (a : ℚ) (T : List (Option ℚ)) :
    ∃ A2, ffill (A ++ some a :: T) = A2 ++ some a :: ffillFrom a T
      ∧ A2.length = A.length := by
  induction A with
  | nil => exact ⟨[], by simp [ffill], rfl⟩
  | cons h t ih =>
      cases h with
      | none =>
          obtain ⟨A2, hA, hl⟩ := ih
          exact ⟨none :: A2, by simp [ffill, hA], by simp [hl]⟩
      | some v =>
          obtain ⟨A2, hA, hl⟩ := ffillFrom_append_ex t v a T
          exact ⟨some v :: A2, by simp [ffill, hA], by simp [hl]⟩

theorem bfill_mid (A M C : List (Option ℚ)) (hM : ∀ z ∈ M, z.isSome) (a b : ℚ) :
    ∃ A3 C3, bfill (A ++ some a :: (M ++ some b :: C))
        = A3 ++ some a :: (M ++ some b :: C3)
      ∧ A3.length = A.length ∧ C3.length = C.length := by
  obtain ⟨C2, hC, hCl⟩ := ffill_append_ex C.reverse b (M.reverse ++ some a :: A.reverse)
  rw [ffillFrom_allSome_append M.reverse (fun z hz => hM z (by simpa using hz)) b] at hC
  refine ⟨(ffillFrom a A.reverse).reverse, C2.reverse, ?_,
    by simp [length_ffillFrom], by simpa using hCl⟩
  have hrev : (A ++ some a :: (M ++ some b :: C)).reverse
      = C.reverse ++ some b :: (M.reverse ++ some a :: A.reverse) := by simp
  rw [bfill, hrev, hC]
  simp [ffillFrom]

theorem bfill_allSome_tail (A M : List (Option ℚ)) (hM : ∀ z ∈ M, z.isSome) (a : ℚ) :
    ∃ A3, bfill (A ++ some a :: M) = A3 ++ some a :: M ∧ A3.length = A.length := by
  refine ⟨(ffillFrom a A.reverse).reverse, ?_, by simp [length_ffillFrom]⟩
  have hrev : (A ++ some a :: M).reverse = M.reverse ++ some a :: A.reverse := by simp
  rw [bfill, hrev,
    ffill_allSome_append M.reverse (fun z hz => hM z (by simpa using hz)) a]
  simp

theorem bfill_leading (n : ℕ) (a : ℚ) (F : List (Option ℚ)) (hF : ∀ z ∈ F, z.isSome) :
    bfill (List.replicate n none ++ some a :: F)
      = List.replicate n (some a) ++ some a :: F := by
  have hrev : (List.replicate n none ++ some a :: F).reverse
      = F.reverse ++ some a :: List.replicate n none := by
    simp [List.reverse_replicate]
  rw [bfill, hrev,
    ffill_allSome_append F.reverse (fun z hz => hF z (by simpa using hz)) a]
  have : ffillFrom a (List.replicate n none) = List.replicate n (some a) := by
    simpa [ffillFrom] using ffillFrom_replicate_none a n []
  rw [this]
  simp [List.reverse_replicate]

/-! ### Interpolation decompositions -/

theorem interpFrom_replicate (lim : ℕ) (a : ℚ) (p g : ℕ) (rest : List (Option ℚ)) :
    interpFrom lim a p (List.replicate g none ++ rest)
      = interpFrom lim a (p + g) rest := by
  induction g generalizing p with
  | zero => simp
  | succ m ih =>
      rw [List.replicate_succ, List.cons_append]
      show interpFrom lim a (p + 1) (List.replicate m none ++ rest) = _
      rw [ih]
      congr 1
      omega

theorem interpFrom_append_ex (lim : ℕ) (pre : List (Option ℚ)) (x : ℚ) (p : ℕ)
    (a : ℚ) (tail : List (Option ℚ)) :
    ∃ P, interpFrom lim x p (pre ++ some a :: tail)
        = P ++ some a :: interpFrom lim a 0 tail ∧ P.length = p + pre.length := by
  induction pre generalizing x p with
  | nil => exact ⟨gapFill lim x a p, by simp [interpFrom], by simp [length_gapFill]⟩
  | cons h t ih =>
      cases h with
      | none =>
          obtain ⟨P, hP, hl⟩ := ih x (p + 1)
          refine ⟨P, by simp [interpFrom, hP], by simp [hl]; try omega⟩
      | some v =>
          obtain ⟨P, hP, hl⟩ := ih v 0
          refine ⟨gapFill lim x v p ++ some v :: P, by simp [interpFrom, hP], ?_⟩
          simp [length_gapFill, hl]
          try omega

theorem interpolate_append_ex (lim : ℕ) (pre : List (Option ℚ)) (a : ℚ)
    (tail : List (Option ℚ)) :
    ∃ P, interpolate lim (pre ++ some a :: tail)
        = P ++ some a :: interpFrom lim a 0 tail ∧ P.length = pre.length := by
  induction pre with
  | nil => exact ⟨[], by simp [interpolate], rfl⟩
  | cons h t ih =>
      cases h with
      | none =>
          obtain ⟨P, hP, hl⟩ := ih
          exact ⟨none :: P, by simp [interpolate, hP], by simp [hl]⟩
      | some v =>
          obtain ⟨P, hP, hl⟩ := interpFrom_append_ex lim t v 0 a tail
          exact ⟨some v :: P, by simp [interpolate, hP], by simpa using hl⟩

theorem interpolate_replicate (lim n : ℕ) (a : ℚ) (ys : List (Option ℚ)) :
    interpolate lim (List.replicate n none ++ some a :: ys)
      = List.replicate n none ++ some a :: interpFrom lim a 0 ys := by
  induction n with
  | zero => simp [interpolate]
  | succ m ih => simp [List.replicate_succ, interpolate, ih]

/-! ### The shape a filled interior gap takes -/

theorem allSome_sloped (a b : ℚ) (g : ℕ) : ∀ z ∈ sloped a b g, z.isSome := by
  intro z hz
  simp only [sloped, List.mem_map] at hz
  obtain ⟨k, -, rfl⟩ := hz
  rfl

theorem allSome_filledGap7 (a b : ℚ) (g : ℕ) : ∀ z ∈ filledGap7 a b g, z.isSome := by
  intro z hz
  simp only [filledGap7, List.mem_map] at hz
  obtain ⟨k, -, rfl⟩ := hz
  rfl

theorem gapFill_split (a b : ℚ) (g : ℕ) :
    gapFill 7 a b g = sloped a b g ++ List.replicate (g - 7) none := by
  rcases le_or_lt g 7 with hg | hg
  · simp only [gapFill, sloped, show g - 7 = 0 from by omega,
      show min g 7 = g from by omega, List.replicate_zero, List.append_nil]
    apply List.map_congr_left
    intro k hk
    have hk7 : k < 7 := by have := List.mem_range.mp hk; omega
    simp [hk7, gapVal]
  · obtain ⟨m, rfl⟩ : ∃ m, g = 7 + m := ⟨g - 7, by omega⟩
    simp only [gapFill, sloped, show min (7 + m) 7 = 7 from by omega,
      List.range_add, List.map_append, List.map_map]
    refine congrArg₂ (fun x y => x ++ y) ?_ ?_
    · apply List.map_congr_left
      intro k hk
      have hk7 : k < 7 := List.mem_range.mp hk
      simp [hk7, gapVal]
    · have h1 : List.replicate ((7 + m) - 7) (none : Option ℚ)
          = (List.range m).map fun _ => none := by
        simp [List.map_const', show (7 + m) - 7 = m from by omega]
      rw [h1]
      apply List.map_congr_left
      intro j hj
      have hj7 : ¬ (7 + j < 7) := by omega
      simp [Function.comp, hj7]

theorem filledGap7_split (a b : ℚ) (g : ℕ) :
    filledGap7 a b g
      = sloped a b g ++ List.replicate (g - 7) (some (gapVal a b g 6)) := by
  rcases le_or_lt g 7 with hg | hg
  · simp only [filledGap7, sloped, show g - 7 = 0 from by omega,
      show min g 7 = g from by omega, List.replicate_zero, List.append_nil]
    apply List.map_congr_left
    intro k hk
    have hk6 : min k 6 = k := by have := List.mem_range.mp hk; omega
    rw [hk6]
  · obtain ⟨m, rfl⟩ : ∃ m, g = 7 + m := ⟨g - 7, by omega⟩
    simp only [filledGap7, sloped, show min (7 + m) 7 = 7 from by omega,
      List.range_add, List.map_append, List.map_map]
    refine congrArg₂ (fun x y => x ++ y) ?_ ?_
    · apply List.map_congr_left
      intro k hk
      have hk6 : min k 6 = k := by have := List.mem_range.mp hk; omega
      rw [hk6]
    · have h1 : List.replicate ((7 + m) - 7) (some (gapVal a b (7 + m) 6))
          = (List.range m).map fun _ => some (gapVal a b (7 + m) 6) := by
        simp [List.map_const', show (7 + m) - 7 = m from by omega]
      rw [h1]
      apply List.map_congr_left
      intro j hj
      have hj6 : min (7 + j) 6 = 6 := by omega
      simp [Function.comp, hj6]

theorem lastVal_sloped (a b : ℚ) (g : ℕ) (hg : 7 ≤ g) :
    lastVal a (sloped a b g) = gapVal a b g 6 := by
  simp only [sloped, show min g 7 = 7 from by omega]
  rw [show List.range 7 = [0, 1, 2, 3, 4, 5, 6] from rfl]
  simp [lastVal]

theorem ffillFrom_gap (a b : ℚ) (g : ℕ) (I : List (Option ℚ)) :
    ffillFrom a (gapFill 7 a b g ++ some b :: I)
      = filledGap7 a b g ++ some b :: ffillFrom b I := by
  rw [gapFill_split, List.append_assoc,
    ffillFrom_allSome_append (sloped a b g) (allSome_sloped a b g) a,
    ffillFrom_replicate_none]
  rcases le_or_lt g 7 with hg | hg
  · rw [filledGap7_split]
    simp [show g - 7 = 0 from by omega, ffillFrom]
  · rw [lastVal_sloped a b g (by omega), filledGap7_split]
    simp [ffillFrom, List.append_assoc]

/-! ### Net effect of `.interpolate(limit=7).ffill().bfill()` -/

/-- An interior run of `g` missing values bounded by valid values `a` and
`b` ends up holding `filledGap7 a b g`, whatever surrounds it. -/
theorem clean_interior (pre post : List (Option ℚ)) (a b : ℚ) (g : ℕ) :
    ∃ P Q, clean 7 (pre ++ some a :: (List.replicate g none ++ some b :: post))
        = P ++ some a :: (filledGap7 a b g ++ some b :: Q)
      ∧ P.length = pre.length ∧ Q.length = post.length := by
  have h2 : interpFrom 7 a 0 (List.replicate g none ++ some b :: post)
      = gapFill 7 a b g ++ some b :: interpFrom 7 b 0 post := by
    rw [interpFrom_replicate]
    simp [interpFrom]
  obtain ⟨P1, hP1, hP1l⟩ :=
    interpolate_append_ex 7 pre a (List.replicate g none ++ some b :: post)
  rw [h2] at hP1
  obtain ⟨A2, hA2, hA2l⟩ :=
    ffill_append_ex P1 a (gapFill 7 a b g ++ some b :: interpFrom 7 b 0 post)
  rw [ffillFrom_gap] at hA2
  obtain ⟨A3, C3, hB, hA3l, hC3l⟩ :=
    bfill_mid A2 (filledGap7 a b g) (ffillFrom b (interpFrom 7 b 0 post))
      (allSome_filledGap7 a b g) a b
  refine ⟨A3, C3, ?_, by omega, ?_⟩
  · rw [clean, hP1, hA2, hB]
  · rw [hC3l, length_ffillFrom, length_interpFrom]
    omega

/-- A leading run of missing values is backfilled with the first valid
value, and everything after the first valid value is valid. -/
theorem clean_leading (n : ℕ) (a : ℚ) (ys : List (Option ℚ)) :
    ∃ R, clean 7 (List.replicate n none ++ some a :: ys)
        = List.replicate n (some a) ++ some a :: R
      ∧ R.length = ys.length ∧ ∀ z ∈ R, z.isSome := by
  rw [clean, interpolate_replicate, ffill_replicate_none,
    bfill_leading n a _ (isSome_ffillFrom a _)]
  exact ⟨_, rfl, by simp [length_ffillFrom, length_interpFrom],
    isSome_ffillFrom a _⟩

theorem ffillFrom_allEq (a : ℚ) (T : List (Option ℚ))
    (hT : ∀ z ∈ T, z = none ∨ z = some a) :
    ffillFrom a T = List.replicate T.length (some a) := by
  induction T with
  | nil => simp [ffillFrom]
  | cons h t ih =>
      rcases hT h (by simp) with rfl | rfl <;>
        simp [ffillFrom, List.replicate_succ, ih fun z hz => hT z (by simp [hz])]

/-- A trailing run of missing values is forward-filled with the last valid
value. -/
theorem clean_trailing (pre : List (Option ℚ)) (a : ℚ) (k : ℕ) :
    ∃ P, clean 7 (pre ++ some a :: List.replicate k none)
        = P ++ some a :: List.replicate k (some a) ∧ P.length = pre.length := by
  obtain ⟨P1, hP1, hP1l⟩ := interpolate_append_ex 7 pre a (List.replicate k none)
  have h2 : interpFrom 7 a 0 (List.replicate k none) = tailFill 7 a k := by
    simpa [interpFrom] using interpFrom_replicate 7 a 0 k []
  rw [h2] at hP1
  obtain ⟨A2, hA2, hA2l⟩ := ffill_append_ex P1 a (tailFill 7 a k)
  have h3 : ffillFrom a (tailFill 7 a k) = List.replicate k (some a) := by
    rw [ffillFrom_allEq a _ ?_, length_tailFill]
    intro z hz
    simp only [tailFill, List.mem_map] at hz
    obtain ⟨j, -, rfl⟩ := hz
    by_cases hj : j < 7 <;> simp [hj]
  rw [h3] at hA2
  obtain ⟨A3, hB, hA3l⟩ :=
    bfill_allSome_tail A2 (List.replicate k (some a)) (by simp) a
  refine ⟨A3, ?_, by omega⟩
  rw [clean, hP1, hA2, hB]

/-- Any list with at least one valid value splits as leading NaNs, a first
valid value, and a remainder. -/
theorem exists_some_decomp (xs : List (Option ℚ)) (h : ∃ z ∈ xs, z.isSome) :
    ∃ n a ys, xs = List.replicate n none ++ some a :: ys := by
  induction xs with
  | nil => simp at h
  | cons hd t ih =>
      cases hd with
      | some v => exact ⟨0, v, t, by simp⟩
      | none =>
          obtain ⟨n, a, ys, rfl⟩ := ih (by simpa using h)
          exact ⟨n + 1, a, ys, by simp [List.replicate_succ]⟩

/-- After cleaning, a column with at least one valid value has no missing
values left. -/
theorem clean_allSome (xs : List (Option ℚ)) (h : ∃ z ∈ xs, z.isSome) :
    ∀ z ∈ clean 7 xs, z.isSome := by
  obtain ⟨n, a, ys, rfl⟩ := exists_some_decomp xs h
  obtain ⟨R, hR, -, hRs⟩ := clean_leading n a ys
  rw [hR]
  intro z hz
  rcases List.mem_append.mp hz with hz | hz
  · rw [List.eq_of_mem_replicate hz]
    rfl
  · rcases List.mem_cons.mp hz with rfl | hz
    · rfl
    · exact hRs z hz

/-! ### Row-level plumbing for `load_price_history` -/

theorem zipRows_map_date (rows : List PRow) :
    ∀ (cs rs us : List (Option ℚ)),
      cs.length = rows.length → rs.length = rows.length → us.length = rows.length →
      (zipRows rows cs rs us).map (·.date) = rows.map (·.date) := by
  induction rows with
  | nil => intro cs rs us _ _ _; cases cs <;> cases rs <;> cases us <;> simp [zipRows]
  | cons row rest ih =>
      intro cs rs us hc hr hu
      cases cs with
      | nil => simp at hc
      | cons c cs =>
          cases rs with
          | nil => simp at hr
          | cons r rs =>
              cases us with
              | nil => simp at hu
              | cons u us =>
                  simp only [zipRows, List.map_cons]
                  rw [ih cs rs us (by simpa using hc) (by simpa using hr)
                    (by simpa using hu)]

theorem zipRows_map_crude (rows : List PRow) :
    ∀ (cs rs us : List (Option ℚ)),
      cs.length = rows.length → rs.length = rows.length → us.length = rows.length →
      (zipRows rows cs rs us).map (·.crude) = cs := by
  induction rows with
  | nil =>
      intro cs rs us hc hr hu
      cases cs with
      | nil => simp [zipRows]
      | cons c cs => simp at hc
  | cons row rest ih =>
      intro cs rs us hc hr hu
      cases cs with
      | nil => simp at hc
      | cons c cs =>
          cases rs with
          | nil => simp at hr
          | cons r rs =>
              cases us with
              | nil => simp at hu
              | cons u us =>
                  simp only [zipRows, List.map_cons]
                  rw [ih cs rs us (by simpa using hc) (by simpa using hr)
                    (by simpa using hu)]

theorem zipRows_map_rbob (rows : List PRow) :
    ∀ (cs rs us : List (Option ℚ)),
      cs.length = rows.length → rs.length = rows.length → us.length = rows.length →
      (zipRows rows cs rs us).map (·.rbob) = rs := by
  induction rows with
  | nil =>
      intro cs rs us hc hr hu
      cases rs with
      | nil => cases cs <;> cases us <;> simp [zipRows]
      | cons r rs => simp at hr
  | cons row rest ih =>
      intro cs rs us hc hr hu
      cases cs with
      | nil => simp at hc
      | cons c cs =>
          cases rs with
          | nil => simp at hr
          | cons r rs =>
              cases us with
              | nil => simp at hu
              | cons u us =>
                  simp only [zipRows, List.map_cons]
                  rw [ih cs rs us (by simpa using hc) (by simpa using hr)
                    (by simpa using hu)]

theorem zipRows_map_ulsd (rows : List PRow) :
    ∀ (cs rs us : List (Option ℚ)),
      cs.length = rows.length → rs.length = rows.length → us.length = rows.length →
      (zipRows rows cs rs us).map (·.ulsd) = us := by
  induction rows with
  | nil =>
      intro cs rs us hc hr hu
      cases us with
      | nil => cases cs <;> cases rs <;> simp [zipRows]
      | cons u us => simp at hu
  | cons row rest ih =>
      intro cs rs us hc hr hu
      cases cs with
      | nil => simp at hc
      | cons c cs =>
          cases rs with
          | nil => simp at hr
          | cons r rs =>
              cases us with
              | nil => simp at hu
              | cons u us =>
                  simp only [zipRows, List.map_cons]
                  rw [ih cs rs us (by simpa using hc) (by simpa using hr)
                    (by simpa using hu)]

theorem applyClean_map_date (rows : List PRow) :
    (applyClean rows).map (·.date) = rows.map (·.date) :=
  zipRows_map_date rows _ _ _ (by simp [length_clean]) (by simp [length_clean])
    (by simp [length_clean])

theorem applyClean_map_crude (rows : List PRow) :
    (applyClean rows).map (·.crude) = clean 7 (rows.map (·.crude)) :=
  zipRows_map_crude rows _ _ _ (by simp [length_clean]) (by simp [length_clean])
    (by simp [length_clean])

theorem applyClean_map_rbob (rows : List PRow) :
    (applyClean rows).map (·.rbob) = clean 7 (rows.map (·.rbob)) :=
  zipRows_map_rbob rows _ _ _ (by simp [length_clean]) (by simp [length_clean])
    (by simp [length_clean])

theorem applyClean_map_ulsd (rows : List PRow) :
    (applyClean rows).map (·.ulsd) = clean 7 (rows.map (·.ulsd)) :=
  zipRows_map_ulsd rows _ _ _ (by simp [length_clean]) (by simp [length_clean])
    (by simp [length_clean])

theorem sortByDate_pairwise (rows : List PRow) :
    List.Pairwise (fun r s : PRow => r.date ≤ s.date) (sortByDate rows) := by
  have h := @List.sorted_mergeSort PRow (fun r s : PRow => decide (r.date ≤ s.date))
    (by intro x y z hxy hyz; simp only [decide_eq_true_eq] at *; omega)
    (by intro x y; simp only [Bool.or_eq_true, decide_eq_true_eq]; omega)
    rows
  exact h.imp (by simp)

theorem sortByDate_perm (rows : List PRow) : (sortByDate rows).Perm rows :=
  List.mergeSort_perm rows _

theorem le_of_maxDate (rows : List PRow) (m : ℤ) (h : maxDate rows = some m) :
    ∀ r ∈ rows, r.date ≤ m := by
  intro r hr
  exact (List.max?_le_iff (fun a b c => max_le_iff) h).1 le_rfl _
    (List.mem_map_of_mem _ hr)

theorem missingCols_eq_nil_iff (cols : List String) :
    missingCols cols = [] ↔ ∀ c ∈ requiredCols, c ∈ cols := by
  simp [missingCols, List.filter_eq_nil_iff]

theorem crack_check_iff (cols : List String) :
    (requiredCols.all fun c => cols.contains c) = true
      ↔ missingCols cols = [] := by
  simp [List.all_eq_true, missingCols_eq_nil_iff cols]

/-! ### The claims -/

/-- C10: the note text produced by `write_market_note` does not depend on
its reference-date argument: for every fixed prices table, output path and
citation sequence, any two values of `today` produce identical note text —
the heading date, the latest crack, its percentile and the mean all come
from the last row of the table, and `today` is never read. -/
theorem note_independent_of_today (prices : Table) (t₁ t₂ : ℤ) (path : String)
    (refs : List Citation) :
    write_market_note prices t₁ path refs = write_market_note prices t₂ path refs :=
  rfl

theorem note_independent_of_today_witness :
    write_market_note T80 0 "note.md" [Citation.bare "EIA"]
      = write_market_note T80 999 "note.md" [Citation.bare "EIA"] :=
  note_independent_of_today T80 0 999 "note.md" [Citation.bare "EIA"]

/-- C4: `compute_percentile` returns 100 · |{non-missing values ≤ target}| /
|non-missing values| (ties on the ≤ side), `none` (NaN) on an all-missing
series rather than an error, and `75` on the series `[10,20,30,40]` with
target `30`. -/
theorem compute_percentile_spec :
    (∀ (series : List (Option ℚ)) (value : ℚ), series.filterMap id ≠ [] →
        compute_percentile series value
          = some ((100 : ℚ)
              * ((series.filterMap id).filter fun x => decide (x ≤ value)).length
              / (series.filterMap id).length))
  ∧ (∀ (series : List (Option ℚ)) (value : ℚ), series.filterMap id = [] →
        compute_percentile series value = none)
  ∧ compute_percentile [some 10, some 20, some 30, some 40] 30 = some 75 := by
  refine ⟨?_, ?_, ?_⟩
  · intro series value h
    rw [compute_percentile, if_neg (by simpa [List.length_eq_zero] using h),
      Option.some.injEq]
    ring
  · intro series value h
    rw [compute_percentile, if_pos (by simp [h])]
  · norm_num [compute_percentile, List.filterMap_cons, List.filter]

theorem compute_percentile_spec_witness :
    compute_percentile [some 10, some 20, some 30, some 40] 30
        = some ((100 : ℚ)
            * ((([some 10, some 20, some 30, some 40] : List (Option ℚ)).filterMap id).filter
                fun x => decide (x ≤ 30)).length
            / (([some 10, some 20, some 30, some 40] : List (Option ℚ)).filterMap id).length)
  ∧ compute_percentile [none] 5 = none :=
  ⟨compute_percentile_spec.1 [some 10, some 20, some 30, some 40] 30 (by simp),
   compute_percentile_spec.2.1 [none] 5 (by simp)⟩

/-- C3: for every base scalars, `build_scenario_table` has exactly 9 rows,
is a permutation of the Cartesian-product enumeration (crude-delta outer
loop, product-delta inner loop), and is strictly descending in `crack` —
the nine crack values are always pairwise distinct, so the tie-breaking
clause is vacuous and the descending order is unique. -/
theorem scenario_table_spec (c r u : ℚ) :
    (build_scenario_table c r u).length = 9
  ∧ (build_scenario_table c r u).Perm (scenarioList c r u)
  ∧ List.Pairwise (fun x y : ScenarioRow => y.crack < x.crack)
      (build_scenario_table c r u) := by
  have hperm : (build_scenario_table c r u).Perm (scenarioList c r u) :=
    List.mergeSort_perm _ _
  have hsorted : List.Pairwise
      (fun x y : ScenarioRow => decide (y.crack ≤ x.crack) = true)
      (build_scenario_table c r u) :=
    @List.sorted_mergeSort ScenarioRow (fun x y => decide (y.crack ≤ x.crack))
      (by intro a b e hab hbe; simp only [decide_eq_true_eq] at *; linarith)
      (by intro a b; simp only [Bool.or_eq_true, decide_eq_true_eq]; exact le_total _ _)
      (scenarioList c r u)
  have hsorted' : List.Pairwise (fun x y : ScenarioRow => y.crack ≤ x.crack)
      (build_scenario_table c r u) := hsorted.imp (by simp)
  have hmap : (scenarioList c r u).map (·.crack)
      = ([-33/10, 3, 93/10, -63/10, 0, 63/10, -93/10, -3, 33/10] : List ℚ).map
          (fun q => (2*r + u) * 42 - 3*c + q) := by
    simp only [scenarioList, List.flatMap, List.map_cons, List.map_nil, List.flatten,
      List.cons_append, List.nil_append, List.cons.injEq, and_true]
    and_intros <;> ring
  have hnodup : ((scenarioList c r u).map (·.crack)).Nodup := by
    rw [hmap]
    refine List.Nodup.map (fun x y hxy => by linarith) ?_
    norm_num [List.nodup_cons, List.mem_cons]
  have hne : List.Pairwise (fun x y : ScenarioRow => x.crack ≠ y.crack)
      (build_scenario_table c r u) := by
    have h2 : ((build_scenario_table c r u).map (·.crack)).Nodup :=
      ((hperm.map (·.crack)).nodup_iff).mpr hnodup
    exact List.pairwise_map.mp h2
  refine ⟨by rw [hperm.length_eq]; rfl, hperm, ?_⟩
  exact (hsorted'.and hne).imp fun h => h.1.lt_of_ne (Ne.symm h.2)

theorem scenario_table_spec_witness :
    (build_scenario_table 80 2.40 2.60).length = 9
  ∧ (build_scenario_table 80 2.40 2.60).Perm (scenarioList 80 2.40 2.60)
  ∧ List.Pairwise (fun x y : ScenarioRow => y.crack < x.crack)
      (build_scenario_table 80 2.40 2.60) :=
  scenario_table_spec 80 2.40 2.60

/-- C5, counterexample: on `crude=80, rbob=2.40, ulsd=2.60`, the computed
crack is `(2·2.40 + 2.60)·42 − 240 = 7.40·42 − 240 = 70.8`, not the `79.2`
claimed (the claim's arithmetic mis-adds `2·2.40 + 2.60` as `7.60`). -/
theorem crack_formula_cex :
    (compute_crack T80).map (fun t => t.rows.map (·.crack)) = .ok [some (70.8 : ℚ)]
  ∧ (70.8 : ℚ) ≠ 79.2 := by
  constructor
  · rw [compute_crack, if_pos (by decide)]
    simp [T80, row80, crackOf, Except.map]
    norm_num
  · norm_num

/-- C5 as amended: for every row `compute_crack` sets
`crack = (2·rbob + 1·ulsd)·42 − 3·crude` exactly, with no rounding; on
`crude=80, rbob=2.40, ulsd=2.60` this yields `70.8`. -/
theorem crack_formula_spec :
    (∀ (prices out : Table), compute_crack prices = .ok out →
        ∀ (i : ℕ) (pr : PRow), prices.rows[i]? = some pr →
          (out.rows[i]?).map (·.crack) = some (crackOf pr.crude pr.rbob pr.ulsd))
  ∧ (∀ cv rv uv : ℚ, crackOf (some cv) (some rv) (some uv)
        = some ((2 * rv + 1 * uv) * 42 - 3 * cv))
  ∧ (compute_crack T80).map (fun t => t.rows.map (·.crack)) = .ok [some (70.8 : ℚ)] := by
  refine ⟨?_, fun cv rv uv => rfl, ?_⟩
  · intro prices out h i pr hpr
    rw [compute_crack] at h
    by_cases hc : (requiredCols.all fun c => prices.cols.contains c) = true
    · rw [if_pos hc, Except.ok.injEq] at h
      subst h
      simp [List.getElem?_map, hpr]
    · rw [if_neg hc] at h
      exact absurd h (by simp)
  · rw [compute_crack, if_pos (by decide)]
    simp [T80, row80, crackOf, Except.map]
    norm_num

/-- Concrete evaluation: `compute_crack` on the crack-free table `T80`. -/
theorem hokT80 : compute_crack T80 = .ok T80c := by
  rw [compute_crack, if_pos (by decide), if_neg (by decide)]
  simp only [T80, T80c, row80, crackOf, List.map_cons, List.map_nil, Except.ok.injEq,
    Table.mk.injEq, List.cons.injEq, and_true, PRow.mk.injEq, Option.some.injEq]
  norm_num

/-- Concrete evaluation: `compute_crack` on `T9`, which already has a
`crack` column; its value `0` is overwritten. -/
theorem hokT9 : compute_crack T9 = .ok T80c := by
  rw [compute_crack, if_pos (by decide), if_pos (by decide)]
  simp only [T9, T80c, t9row, row80, crackOf, List.map_cons, List.map_nil, Except.ok.injEq,
    Table.mk.injEq, List.cons.injEq, and_true, PRow.mk.injEq, Option.some.injEq]
  norm_num

theorem crack_formula_spec_witness :
    (T80c.rows[0]?).map (·.crack)
      = some (crackOf row80.crude row80.rbob row80.ulsd) :=
  crack_formula_spec.1 T80 T80c hokT80 0 row80 (by simp [T80])

/-- C9, counterexample: on a table that already carries a `crack` column
(value `0`), `compute_crack` overwrites it with the recomputed value, so
the returned table does not contain every original column with its original
values. -/
theorem crack_overwrite_cex :
    "crack" ∈ T9.cols
  ∧ T9.rows.map (·.crack) = [some 0]
  ∧ (compute_crack T9).map (fun t => t.rows.map (·.crack)) = .ok [some (70.8 : ℚ)]
  ∧ some (70.8 : ℚ) ≠ some (0 : ℚ) := by
  refine ⟨by decide, by simp [T9, t9row, row80], ?_, by norm_num⟩
  rw [compute_crack, if_pos (by decide)]
  simp [T9, t9row, row80, crackOf, Except.map]
  norm_num

/-- C9 as amended: `compute_crack` never mutates its input (it works on a
copy); the returned table keeps every original column's values except a
pre-existing `crack` column, which is overwritten with the recomputed
values; when no `crack` column exists, every original column is preserved
and `crack` is appended. -/
theorem compute_crack_frame :
    ∀ (prices out : Table), compute_crack prices = .ok out →
      (∀ (i : ℕ) (pr : PRow), prices.rows[i]? = some pr →
          out.rows[i]? = some { pr with crack := crackOf pr.crude pr.rbob pr.ulsd })
      ∧ out.rows.length = prices.rows.length
      ∧ ("crack" ∉ prices.cols → out.cols = prices.cols ++ ["crack"])
      ∧ ("crack" ∈ prices.cols → out.cols = prices.cols) := by
  intro prices out h
  rw [compute_crack] at h
  by_cases hc : (requiredCols.all fun c => prices.cols.contains c) = true
  · rw [if_pos hc, Except.ok.injEq] at h
    subst h
    refine ⟨?_, by simp, ?_, ?_⟩
    · intro i pr hpr
      simp [List.getElem?_map, hpr]
    · intro hnc
      rw [if_neg (by simpa using hnc)]
    · intro hcc
      rw [if_pos (by simpa using hcc)]
  · rw [if_neg hc] at h
    exact absurd h (by simp)

theorem compute_crack_frame_witness :
    T80c.rows[0]? = some { t9row with crack := crackOf t9row.crude t9row.rbob t9row.ulsd } :=
  (compute_crack_frame T9 T80c hokT9).1 0 t9row (by simp [T9])

/-- C2, counterexample: on a table missing both `date` and `crude`,
`load_price_history` fails inside `pd.read_csv(..., parse_dates=["date"])`,
whose error names only `date` — not with a schema error naming the missing
columns `date` and `crude`. -/
theorem schema_error_cex :
    load_price_history T2 none = .error (.parseDates ["date"])
  ∧ missingCols T2.cols = ["date", "crude"]
  ∧ LoadErr.parseDates ["date"] ≠ LoadErr.schema ["date", "crude"] := by
  refine ⟨?_, by decide, by decide⟩
  rw [load_price_history, if_neg (by decide)]

/-- C2 as amended: when `date` is absent, `load_price_history` fails during
CSV reading with an error naming only `date`; when `date` is present and
any of `crude`, `rbob`, `ulsd` is absent, it fails with a SchemaError
naming exactly the missing columns; `compute_crack` fails with its
SchemaError whenever a required column is absent; when all four are
present, neither operation raises a schema error. -/
theorem schema_error_spec :
    (∀ (t : Table) (today : Option ℤ), "date" ∉ t.cols →
        load_price_history t today = .error (.parseDates ["date"]))
  ∧ (∀ (t : Table) (today : Option ℤ), "date" ∈ t.cols → missingCols t.cols ≠ [] →
        load_price_history t today = .error (.schema (missingCols t.cols)))
  ∧ (∀ (c : String) (cols : List String),
        c ∈ missingCols cols ↔ c ∈ requiredCols ∧ c ∉ cols)
  ∧ (∀ (t : Table) (today : Option ℤ), missingCols t.cols = [] →
        ∃ out, load_price_history t today = .ok out)
  ∧ (∀ p : Table, missingCols p.cols ≠ [] → compute_crack p = .error crackErrMsg)
  ∧ (∀ p : Table, missingCols p.cols = [] → ∃ out, compute_crack p = .ok out) := by
  refine ⟨?_, ?_, ?_, ?_, ?_, ?_⟩
  · intro t today h
    rw [load_price_history, if_neg h]
  · intro t today hd hm
    rw [load_price_history, if_pos hd, if_neg hm]
  · intro c cols
    simp [missingCols, List.mem_filter]
  · intro t today h
    have hd : "date" ∈ t.cols :=
      (missingCols_eq_nil_iff t.cols).mp h "date" (by simp [requiredCols])
    rw [load_price_history, if_pos hd, if_pos h]
    cases today with
    | none => exact ⟨_, rfl⟩
    | some d =>
        dsimp only
        split
        · split
          · exact ⟨_, rfl⟩
          · exact ⟨_, rfl⟩
        · exact ⟨_, rfl⟩
  · intro p hne
    rw [compute_crack, if_neg fun hall => hne ((crack_check_iff p.cols).mp hall)]
  · intro p h
    exact ⟨{ cols := if p.cols.contains "crack" then p.cols else p.cols ++ ["crack"],
             rows := p.rows.map fun r =>
               { r with crack := crackOf r.crude r.rbob r.ulsd } },
           by rw [compute_crack, if_pos ((crack_check_iff p.cols).mpr h)]⟩

theorem schema_error_spec_witness :
    load_price_history T2 none = .error (.parseDates ["date"])
  ∧ load_price_history T2b none = .error (.schema (missingCols T2b.cols))
  ∧ ("crude" ∈ missingCols ["date"] ↔ "crude" ∈ requiredCols ∧ "crude" ∉ ["date"])
  ∧ (∃ out, load_price_history T80 none = .ok out)
  ∧ compute_crack T2 = .error crackErrMsg
  ∧ (∃ out, compute_crack T80 = .ok out) :=
  ⟨schema_error_spec.1 T2 none (by decide),
   schema_error_spec.2.1 T2b none (by decide) (by decide),
   schema_error_spec.2.2.1 "crude" ["date"],
   schema_error_spec.2.2.2.1 T80 none (by decide),
   schema_error_spec.2.2.2.2.1 T2 (by decide),
   schema_error_spec.2.2.2.2.2 T80 (by decide)⟩

/-- C6: a reference date strictly later than the maximum loaded date
appends exactly one row, dated at the reference date, whose price cells are
copies of the prior last row; a reference date `≤` the maximum adds
nothing. -/
theorem reference_date_extension :
    ∀ (t base : Table) (d m : ℤ) (last : PRow),
      load_price_history t none = .ok base →
      base.rows.getLast? = some last →
      maxDate base.rows = some m →
      ((m < d → load_price_history t (some d)
          = .ok { cols := t.cols, rows := base.rows ++ [{ last with date := d }] })
       ∧ (d ≤ m → load_price_history t (some d) = .ok base)) := by
  intro t base d m last hbase hlast hmax
  rw [load_price_history] at hbase
  by_cases hd : "date" ∈ t.cols
  swap
  · rw [if_neg hd] at hbase; exact absurd hbase (by simp)
  rw [if_pos hd] at hbase
  by_cases hm : missingCols t.cols = []
  swap
  · rw [if_neg hm] at hbase; exact absurd hbase (by simp)
  rw [if_pos hm] at hbase
  dsimp only at hbase
  have hbase' : base = { cols := t.cols, rows := applyClean (sortByDate t.rows) } :=
    (Except.ok.inj hbase).symm
  subst hbase'
  dsimp only at hlast hmax
  constructor
  · intro hlt
    rw [load_price_history, if_pos hd, if_pos hm]
    dsimp only
    rw [hlast, hmax]
    dsimp only
    rw [if_pos hlt]
  · intro hle
    rw [load_price_history, if_pos hd, if_pos hm]
    dsimp only
    rw [hlast, hmax]
    dsimp only
    rw [if_neg (not_lt.mpr hle)]

/-- Concrete evaluation: loading the already-sorted, gap-free table `T6`
returns it unchanged. -/
theorem hloadT6 : load_price_history T6 none = .ok T6 := by
  rw [load_price_history, if_pos (by decide), if_pos (by decide)]
  have hsort : sortByDate T6.rows = T6.rows := List.mergeSort_of_sorted (by decide)
  have hclean : applyClean T6.rows = T6.rows := by
    simp [applyClean, T6, rowA, rowB, clean, interpolate, interpFrom, gapFill,
      tailFill, ffill, ffillFrom, bfill, zipRows]
  dsimp only
  rw [hsort, hclean]

theorem reference_date_extension_witness :
    ((1 : ℤ) < 5 → load_price_history T6 (some 5)
        = .ok { cols := T6.cols, rows := T6.rows ++ [{ rowB with date := 5 }] })
  ∧ ((5 : ℤ) ≤ 1 → load_price_history T6 (some 5) = .ok T6) :=
  reference_date_extension T6 T6 5 1 rowB hloadT6 (by decide) (by decide)

/-- The cleaned frame is sorted by date and, per column, free of missing
values as soon as the raw column had one valid value. -/
theorem df_invariants (t : Table) :
    List.Pairwise (fun r s : PRow => r.date ≤ s.date) (applyClean (sortByDate t.rows))
  ∧ ((∃ z ∈ t.rows.map (·.crude), z.isSome) →
        ∀ r ∈ applyClean (sortByDate t.rows), r.crude.isSome)
  ∧ ((∃ z ∈ t.rows.map (·.rbob), z.isSome) →
        ∀ r ∈ applyClean (sortByDate t.rows), r.rbob.isSome)
  ∧ ((∃ z ∈ t.rows.map (·.ulsd), z.isSome) →
        ∀ r ∈ applyClean (sortByDate t.rows), r.ulsd.isSome) := by
  refine ⟨?_, ?_, ?_, ?_⟩
  · have h1 := sortByDate_pairwise t.rows
    have h3 : List.Pairwise ((· ≤ ·) : ℤ → ℤ → Prop)
        ((sortByDate t.rows).map (·.date)) := List.pairwise_map.mpr h1
    rw [← applyClean_map_date] at h3
    exact List.pairwise_map.mp h3
  · intro hex r hr
    obtain ⟨z, hz, hzs⟩ := hex
    obtain ⟨row, hrow, rfl⟩ := List.mem_map.mp hz
    have hrow2 : row ∈ sortByDate t.rows := ((sortByDate_perm t.rows).mem_iff).mpr hrow
    have hall := clean_allSome ((sortByDate t.rows).map (·.crude))
      ⟨row.crude, List.mem_map_of_mem _ hrow2, hzs⟩
    have hmem : r.crude ∈ (applyClean (sortByDate t.rows)).map (·.crude) :=
      List.mem_map_of_mem _ hr
    rw [applyClean_map_crude] at hmem
    exact hall _ hmem
  · intro hex r hr
    obtain ⟨z, hz, hzs⟩ := hex
    obtain ⟨row, hrow, rfl⟩ := List.mem_map.mp hz
    have hrow2 : row ∈ sortByDate t.rows := ((sortByDate_perm t.rows).mem_iff).mpr hrow
    have hall := clean_allSome ((sortByDate t.rows).map (·.rbob))
      ⟨row.rbob, List.mem_map_of_mem _ hrow2, hzs⟩
    have hmem : r.rbob ∈ (applyClean (sortByDate t.rows)).map (·.rbob) :=
      List.mem_map_of_mem _ hr
    rw [applyClean_map_rbob] at hmem
    exact hall _ hmem
  · intro hex r hr
    obtain ⟨z, hz, hzs⟩ := hex
    obtain ⟨row, hrow, rfl⟩ := List.mem_map.mp hz
    have hrow2 : row ∈ sortByDate t.rows := ((sortByDate_perm t.rows).mem_iff).mpr hrow
    have hall := clean_allSome ((sortByDate t.rows).map (·.ulsd))
      ⟨row.ulsd, List.mem_map_of_mem _ hrow2, hzs⟩
    have hmem : r.ulsd ∈ (applyClean (sortByDate t.rows)).map (·.ulsd) :=
      List.mem_map_of_mem _ hr
    rw [applyClean_map_ulsd] at hmem
    exact hall _ hmem

/-- C8: every table returned by `load_price_history` is sorted
non-decreasingly by date, and each of the three price columns has no
missing values provided the input column held at least one value that
coerced to a number. -/
theorem load_output_invariants :
    ∀ (t : Table) (today : Option ℤ) (out : Table),
      load_price_history t today = .ok out →
      List.Pairwise (fun r s : PRow => r.date ≤ s.date) out.rows
      ∧ ((∃ z ∈ t.rows.map (·.crude), z.isSome) → ∀ r ∈ out.rows, r.crude.isSome)
      ∧ ((∃ z ∈ t.rows.map (·.rbob), z.isSome) → ∀ r ∈ out.rows, r.rbob.isSome)
      ∧ ((∃ z ∈ t.rows.map (·.ulsd), z.isSome) → ∀ r ∈ out.rows, r.ulsd.isSome) := by
  intro t today out h
  obtain ⟨hsorted, hcr, hrb, hul⟩ := df_invariants t
  rw [load_price_history] at h
  by_cases hd : "date" ∈ t.cols
  swap
  · rw [if_neg hd] at h; exact absurd h (by simp)
  rw [if_pos hd] at h
  by_cases hm : missingCols t.cols = []
  swap
  · rw [if_neg hm] at h; exact absurd h (by simp)
  rw [if_pos hm] at h
  dsimp only at h
  cases today with
  | none =>
      have hout := (Except.ok.inj h).symm
      subst hout
      exact ⟨hsorted, hcr, hrb, hul⟩
  | some d =>
      rcases hg : (applyClean (sortByDate t.rows)).getLast? with _ | last
      · rw [hg] at h
        dsimp only at h
        have hout := (Except.ok.inj h).symm
        subst hout
        exact ⟨hsorted, hcr, hrb, hul⟩
      · rcases hmax : maxDate (applyClean (sortByDate t.rows)) with _ | m
        · rw [hg, hmax] at h
          dsimp only at h
          have hout := (Except.ok.inj h).symm
          subst hout
          exact ⟨hsorted, hcr, hrb, hul⟩
        · rw [hg, hmax] at h
          dsimp only at h
          have hlastmem : last ∈ applyClean (sortByDate t.rows) :=
            List.mem_of_getLast?_eq_some hg
          by_cases hlt : m < d
          · rw [if_pos hlt] at h
            have hout := (Except.ok.inj h).symm
            subst hout
            refine ⟨?_, ?_, ?_, ?_⟩
            · refine List.pairwise_append.mpr ⟨hsorted, by simp, ?_⟩
              intro x hx y hy
              rw [List.mem_singleton.mp hy]
              have hxm := le_of_maxDate _ m hmax x hx
              show x.date ≤ d
              omega
            · intro hex r hr
              rcases List.mem_append.mp hr with hr | hr
              · exact hcr hex r hr
              · rw [List.mem_singleton.mp hr]
                exact hcr hex last hlastmem
            · intro hex r hr
              rcases List.mem_append.mp hr with hr | hr
              · exact hrb hex r hr
              · rw [List.mem_singleton.mp hr]
                exact hrb hex last hlastmem
            · intro hex r hr
              rcases List.mem_append.mp hr with hr | hr
              · exact hul hex r hr
              · rw [List.mem_singleton.mp hr]
                exact hul hex last hlastmem
          · rw [if_neg hlt] at h
            have hout := (Except.ok.inj h).symm
            subst hout
            exact ⟨hsorted, hcr, hrb, hul⟩

theorem load_output_invariants_witness :
    List.Pairwise (fun r s : PRow => r.date ≤ s.date) T6.rows
  ∧ ((∃ z ∈ T6.rows.map (·.crude), z.isSome) → ∀ r ∈ T6.rows, r.crude.isSome)
  ∧ ((∃ z ∈ T6.rows.map (·.rbob), z.isSome) → ∀ r ∈ T6.rows, r.rbob.isSome)
  ∧ ((∃ z ∈ T6.rows.map (·.ulsd), z.isSome) → ∀ r ∈ T6.rows, r.ulsd.isSome) :=
  load_output_invariants T6 none T6 hloadT6

/-- For runs of at most 7 missing values, the capped interpolation is the
full linear interpolation. -/
theorem filledGap7_of_le (a b : ℚ) (g : ℕ) (hg : g ≤ 7) :
    filledGap7 a b g = interpVals a b g := by
  simp only [filledGap7, interpVals]
  apply List.map_congr_left
  intro k hk
  have hk6 : min k 6 = k := by have := List.mem_range.mp hk; omega
  rw [hk6, gapVal]

theorem filledGap7_eq_cappedVals (a b : ℚ) (g : ℕ) :
    filledGap7 a b g = cappedVals a b g := by
  simp only [filledGap7, cappedVals]
  apply List.map_congr_left
  intro k hk
  have hnat : min k 6 + 1 = min (k + 1) 7 := by omega
  have hc : ((min (k + 1) 7 : ℕ) : ℚ) = ((min k 6 : ℕ) : ℚ) + 1 := by
    rw [← hnat]
    push_cast
    ring
  rw [gapVal, hc]

/-- C7: applied per column by `load_price_history`, an interior run of at
most 7 missing values bounded by valid values is filled by linear
interpolation between them; a leading run is backfilled with the first
valid value; a trailing run is forward-filled with the last valid value. -/
theorem gap_fill_policy :
    (∀ (pre post : List (Option ℚ)) (a b : ℚ) (g : ℕ), g ≤ 7 →
        ∃ P Q, clean 7 (pre ++ some a :: (List.replicate g none ++ some b :: post))
            = P ++ some a :: (interpVals a b g ++ some b :: Q)
          ∧ P.length = pre.length ∧ Q.length = post.length)
  ∧ (∀ (n : ℕ) (a : ℚ) (ys : List (Option ℚ)),
        ∃ R, clean 7 (List.replicate n none ++ some a :: ys)
            = List.replicate n (some a) ++ some a :: R ∧ R.length = ys.length)
  ∧ (∀ (pre : List (Option ℚ)) (a : ℚ) (k : ℕ),
        ∃ P, clean 7 (pre ++ some a :: List.replicate k none)
            = P ++ some a :: List.replicate k (some a) ∧ P.length = pre.length) := by
  refine ⟨?_, ?_, clean_trailing⟩
  · intro pre post a b g hg
    obtain ⟨P, Q, hPQ, hPl, hQl⟩ := clean_interior pre post a b g
    rw [filledGap7_of_le a b g hg] at hPQ
    exact ⟨P, Q, hPQ, hPl, hQl⟩
  · intro n a ys
    obtain ⟨R, hR, hRl, -⟩ := clean_leading n a ys
    exact ⟨R, hR, hRl⟩

theorem gap_fill_policy_witness :
    (∃ P Q, clean 7 ([] ++ some 10 :: (List.replicate 1 none ++ some 20 :: []))
        = P ++ some 10 :: (interpVals 10 20 1 ++ some 20 :: Q)
      ∧ P.length = 0 ∧ Q.length = 0)
  ∧ (∃ R, clean 7 (List.replicate 2 none ++ some 5 :: [none])
        = List.replicate 2 (some 5) ++ some 5 :: R ∧ R.length = 1)
  ∧ (∃ P, clean 7 ([some 9] ++ some 5 :: List.replicate 3 none)
        = P ++ some 5 :: List.replicate 3 (some 5) ∧ P.length = 1) :=
  ⟨gap_fill_policy.1 [] [] 10 20 1 (by norm_num),
   gap_fill_policy.2.1 2 5 [none],
   gap_fill_policy.2.2 [some 9] 5 3⟩

/-- C1, counterexample: loading a table whose `rbob` column has a 10-row
interior gap between the valid values 10 and 21 yields
`[10, 11, 12, 13, 14, 15, 16, 17, 17, 17, 17, 21]` — the first 7 gap
positions are linearly interpolated (sloped) and the remaining 3 repeat the
7th interpolated value — not the claimed flat fill `[10, 10, 10, 10, 10,
10, 21, 21, 21, 21, 21, 21]` with a flip at the midpoint. -/
theorem long_gap_flat_fill_cex :
    ((load_price_history T12 none).map fun tab => tab.rows.map (·.rbob))
      = .ok [some 10, some 11, some 12, some 13, some 14, some 15, some 16, some 17,
             some 17, some 17, some 17, some 21]
  ∧ ((load_price_history T12 none).map fun tab => tab.rows.map (·.rbob))
      ≠ .ok [some 10, some 10, some 10, some 10, some 10, some 10, some 21, some 21,
             some 21, some 21, some 21, some 21] := by
  have hsort : sortByDate T12.rows = T12.rows := List.mergeSort_of_sorted (by decide)
  have hload : load_price_history T12 none
      = .ok { cols := T12.cols, rows := applyClean T12.rows } := by
    rw [load_price_history, if_pos (by decide), if_pos (by decide)]
    dsimp only
    rw [hsort]
  have hcol : T12.rows.map (·.rbob)
      = [] ++ some 10 :: (List.replicate 10 none ++ some 21 :: []) := rfl
  have hclean : clean 7 ([] ++ some 10 :: (List.replicate 10 none ++ some 21 :: []))
      = [some 10, some 11, some 12, some 13, some 14, some 15, some 16, some 17,
         some 17, some 17, some 17, some 21] := by
    obtain ⟨P, Q, hPQ, hPl, hQl⟩ := clean_interior [] [] 10 21 10
    have hP : P = [] := List.length_eq_zero.mp (by simpa using hPl)
    have hQ : Q = [] := List.length_eq_zero.mp (by simpa using hQl)
    subst hP
    subst hQ
    rw [hPQ]
    have hr : List.range 10 = [0, 1, 2, 3, 4, 5, 6, 7, 8, 9] := rfl
    have hfg : filledGap7 10 21 10
        = [some 11, some 12, some 13, some 14, some 15, some 16, some 17, some 17,
           some 17, some 17] := by
      simp [filledGap7, gapVal, hr]
      norm_num
    rw [hfg]
    rfl
  have hfirst : ((load_price_history T12 none).map fun tab => tab.rows.map (·.rbob))
      = .ok [some 10, some 11, some 12, some 13, some 14, some 15, some 16, some 17,
             some 17, some 17, some 17, some 21] := by
    rw [hload]
    show Except.ok ((applyClean T12.rows).map (·.rbob)) = _
    rw [applyClean_map_rbob, hcol, hclean]
  refine ⟨hfirst, ?_⟩
  rw [hfirst]
  intro heq
  rw [Except.ok.injEq] at heq
  norm_num at heq

/-- C1 as amended: an interior run of `g > 7` missing values bounded by
valid values `a` and `b` is not fully linearly interpolated, but neither is
it flat-filled with a midpoint flip: position `k` (1-based) of the run ends
up holding `a + min(k,7)·(b−a)/(g+1)` — the first 7 positions are linearly
interpolated and the remaining `g − 7` positions repeat the 7th
interpolated value via the forward fill. -/
theorem long_gap_capped_fill (pre post : List (Option ℚ)) (a b : ℚ) (g : ℕ)
    (hg : 7 < g) :
    ∃ P Q, clean 7 (pre ++ some a :: (List.replicate g none ++ some b :: post))
        = P ++ some a :: (cappedVals a b g ++ some b :: Q)
      ∧ P.length = pre.length ∧ Q.length = post.length := by
  obtain ⟨P, Q, hPQ, h1, h2⟩ := clean_interior pre post a b g
  exact ⟨P, Q, by rwa [filledGap7_eq_cappedVals] at hPQ, h1, h2⟩

theorem long_gap_capped_fill_witness :
    ∃ P Q, clean 7 ([] ++ some 10 :: (List.replicate 10 none ++ some 21 :: []))
        = P ++ some 10 :: (cappedVals 10 21 10 ++ some 21 :: Q)
      ∧ P.length = 0 ∧ Q.length = 0 :=
  long_gap_capped_fill [] [] 10 21 10 (by norm_num)

end Oil
